import Mathlib

/-!
# Verification of `beian.py` (company-website / equity lookup tool)

Shallow embedding of the Python source `src/beian.py` and proofs about it.

Conventions of the embedding:
* Python strings are Lean `String`s; character-level operations work on
  `String.toList`.
* Network responses are inputs ("oracles") to the embedded functions: a
  `requests` call that may raise `RequestException` is modelled as an
  `Option`/`Except` valued input, `none`/`.error` standing for the raised
  exception.
* A Python function that may raise an uncaught exception is embedded as an
  `Except Unit` valued function; `.error ()` is the uncaught exception.
* `int(float(s))` is embedded with exact decimal semantics: for a string of
  digits with at most one decimal point its value is the integer part
  (truncation toward zero); two or more decimal points make `float` raise
  `ValueError`.  (IEEE-754 rounding of `float` is idealized as exact; it only
  differs beyond about 15 significant digits.)
-/

namespace Beian

/-! ## Percentage-string parsing (`query_equity_investment`, lines 88–91)

Python:
```
funded_ratio_str = child.get("fundedRatio", "").replace("%", "")
if funded_ratio_str.replace(".", "").isdigit():
    funded_ratio = int(float(funded_ratio_str))
```
-/

/-- Python `str.replace(c, "")`: removes **all** occurrences of `c`. -/
def stripAll (c : Char) (l : List Char) : List Char :=
  l.filter (fun x => x ≠ c)

/-- Python `str.isdigit` on **ASCII** strings: nonempty and all characters
are ASCII digits. This is exact for ASCII input; Python's `str.isdigit`
additionally accepts non-ASCII Unicode digit characters, which this
embedding does not model — theorems about it therefore carry an ASCII
hypothesis. -/
def pyIsdigit (l : List Char) : Bool :=
  !l.isEmpty && l.all Char.isDigit

/-- Value of a digit string read left to right (most significant first). -/
def natOfDigits (l : List Char) : Nat :=
  l.foldl (fun n c => 10 * n + (c.toNat - 48)) 0

/-- `int(float(s))` for a `%`-free string whose characters are ASCII digits
and dots: `float` raises `ValueError` when the string has two or more
decimal points; otherwise the value truncates to the digits before the
(first) dot. The truncation is exact for strings of at most 15 characters
(at most 15 significant digits: the decimal value is then strictly closer
to itself than to any neighbouring double, so rounding cannot cross an
integer). Longer strings, where `float`'s round-to-nearest can round past
an integer or overflow to `inf` (making `int` raise `OverflowError`), are
outside the embedding's domain — theorems about the value therefore carry a
length hypothesis. -/
def pyIntFloat (l : List Char) : Except Unit Nat :=
  if (l.filter (fun x => x = '.')).length ≤ 1 then
    .ok (natOfDigits (l.takeWhile (fun x => x ≠ '.')))
  else
    .error ()

/-- Lines 88–91 of `beian.py`: strip all `%`, test
`.replace(".", "").isdigit()`, and on acceptance compute `int(float(_))`.
`.ok none` = child excluded, `.ok (some n)` = child's ratio parsed as `n`,
`.error ()` = uncaught `ValueError` from `float`. Faithful to the source on
ASCII strings, exactly on values for strings of at most 15 characters (see
`pyIsdigit`, `pyIntFloat`). -/
def parseFundedRatio (s : String) : Except Unit (Option Nat) :=
  let stripped := stripAll '%' s.toList
  if pyIsdigit (stripAll '.' stripped) then
    match pyIntFloat stripped with
    | .ok n => .ok (some n)
    | .error e => .error e
  else
    .ok none

/-! ## The spec's percentage pattern `^\d+(\.\d+)?%?$` (spec §8, claim side)

These definitions transcribe the *specification's* regex and numeric value,
to be compared with the code's `parseFundedRatio`. -/

/-- Matches `^\d+(\.\d+)?$` : a nonempty digit run, optionally followed by a
dot and a nonempty digit run. -/
def matchNumBody (l : List Char) : Bool :=
  let ds := l.takeWhile Char.isDigit
  let rest := l.dropWhile Char.isDigit
  !ds.isEmpty &&
    (match rest with
     | [] => true
     | r :: fs => r = '.' && !fs.isEmpty && fs.all Char.isDigit)

/-- Removes one trailing `%` if present (the `%?$` part of the pattern). -/
def stripTrailingPercent (l : List Char) : List Char :=
  if l.getLast? = some '%' then l.dropLast else l

/-- The spec's pattern `^\d+(\.\d+)?%?$`. -/
def specPercentRegexMatch (s : String) : Bool :=
  matchNumBody (stripTrailingPercent s.toList)

/-- The exact numeric value of a string matching the spec's pattern:
integer part plus fractional part. -/
def specNumericValue (s : String) : ℚ :=
  let l := stripTrailingPercent s.toList
  let ds := l.takeWhile Char.isDigit
  let fs := (l.dropWhile Char.isDigit).drop 1
  (natOfDigits ds : ℚ) + (natOfDigits fs : ℚ) / 10 ^ fs.length

/-! ## Entity resolver (`get_ent_info`, lines 18–55)

Network layer and JSON decoding are inputs: `none` for the request branch
stands for a raised `requests.exceptions.RequestException` (which includes
`raise_for_status` errors and `response.json()` JSON decode errors, all
caught by the first `except`). -/

/-- Shape of the search response that `get_ent_info` inspects: whether
`data["data"]["list"]` exists, and its elements' `entName`/`entid` fields
(`none` = key missing, raising `KeyError`). -/
structure SearchResponse where
  listPresent : Bool
  list : List (Option (String × String))
deriving DecidableEq

/-- `get_ent_info` (lines 38–55): every `RequestException` is caught and
mapped to `None`; `KeyError`/`IndexError` from the field accesses are caught
and mapped to `None`; an empty list maps to `None`; otherwise the first
element's `(entName, entid)`. -/
def get_ent_info (resp : Option SearchResponse) : Option (String × String) :=
  match resp with
  | none => none
  | some data =>
    if data.listPresent then
      match data.list with
      | [] => none
      | first :: _ =>
        match first with
        | none => none
        | some nameId => some nameId
    else none

/-! ## Equity graph query (`query_equity_investment`, lines 58–97) -/

/-- A child object of the graph response. `entname`/`entid` are taken as
present (the code reads them with `child[...]` only after the ratio is
accepted); `fundedRatio` is read with `child.get("fundedRatio", "")`, so a
missing key is the default `""`. -/
structure RawChild where
  entname : String
  entid : String
  fundedRatio : String
deriving DecidableEq

/-- Shape of the graph response that the code inspects: truthiness of
`data.get("success")` and `data.get("data")`, and
`data["data"].get("children", [])`. -/
structure GraphResponse where
  success : Bool
  dataTruthy : Bool
  children : List RawChild
deriving DecidableEq

/-- A child investment record as built by `query_equity_investment`
(lines 92–96) and later enriched with `website` by the fan-out. -/
structure ChildRec where
  name : String
  entid : String
  funded_ratio : Nat
  website : Option String
deriving DecidableEq

/-- The per-child loop of `query_equity_investment` (lines 87–96): each
child's ratio string is parsed; excluded children are skipped, accepted
children are kept when `funded_ratio >= threshold`; a `ValueError` from
`float` (`.error`) propagates uncaught. -/
def queryChildren (threshold : Int) : List RawChild → Except Unit (List ChildRec)
  | [] => .ok []
  | c :: cs =>
    match parseFundedRatio c.fundedRatio with
    | .error e => .error e
    | .ok none => queryChildren threshold cs
    | .ok (some r) =>
      match queryChildren threshold cs with
      | .error e => .error e
      | .ok rest =>
        if threshold ≤ (r : Int) then
          .ok (⟨c.entname, c.entid, r, none⟩ :: rest)
        else
          .ok rest

/-- `query_equity_investment` (lines 58–97): a network error (`none`) is
caught and yields `[]`; a response without truthy `success` and `data`
yields `[]`; otherwise the children are filtered by the ratio parse and
threshold. -/
def query_equity_investment (resp : Option GraphResponse) (threshold : Int) :
    Except Unit (List ChildRec) :=
  match resp with
  | none => .ok []
  | some data =>
    if data.success && data.dataTruthy then
      queryChildren threshold data.children
    else
      .ok []

/-! ## Website extractor (`get_official_website`, lines 100–148)

The two genuinely external ingredients are inputs: the page fetch
(`session.get` + `raise_for_status` + `.text`, whose failure is a raised
`RequestException`, modelled `.error ()`), and the `BeautifulSoup` parse of
the 1000-character window (which may raise — `.error ()` — or find no anchor
— `.ok none` — or yield the first anchor's href — `.ok (some href)`). -/

/-- First index at which `pat` occurs in `l`, Python `str.find` (minus its
`-1` convention: `none` for not found). -/
def listFind (pat : List Char) : List Char → Option Nat
  | [] => if pat = [] then some 0 else none
  | c :: cs =>
    if pat.isPrefixOf (c :: cs) then some 0
    else (listFind pat cs).map (· + 1)

/-- The marker searched for on the detail page (line 133). -/
def websiteMarker : List Char := "官网： <div ".toList

/-- Python `str.startswith`, at character level. -/
def pyStartsWith (pre : String) (s : String) : Bool :=
  pre.toList.isPrefixOf s.toList

/-- Line 145: protocol-relative hrefs get an explicit `http:` prefix, all
others pass through unchanged. -/
def normalizeHref (href : String) : String :=
  if pyStartsWith "//" href then "http:" ++ href else href

/-- The `try:` block of lines 131–145: locate the marker (absent: `None`),
take the 1000-character window, run the anchor search on it (which may
raise — `.error` — or find nothing), and normalize the found href. -/
def websiteParseBody (html_text : String)
    (soup : String → Except Unit (Option String)) :
    Except Unit (Option String) :=
  match listFind websiteMarker html_text.toList with
  | none => .ok none              -- marker absent: return None
  | some start_index =>
    let relevant_html := String.mk ((html_text.toList.drop start_index).take 1000)
    match soup relevant_html with
    | .error e => .error e        -- BeautifulSoup / tag access raised
    | .ok none => .ok none        -- no <a href=...> in the window
    | .ok (some href) => .ok (some (normalizeHref href))

/-- `get_official_website` (lines 123–148), given the outcome `net` of the
page fetch and the behavior `soup` of the anchor search on the
1000-character window. Returns what the Python call does: `.ok v` when the
function returns `v`, `.error ()` if an exception were to escape. -/
def get_official_website (net : Except Unit String)
    (soup : String → Except Unit (Option String)) :
    Except Unit (Option String) :=
  match net with
  | .error _ => .ok none          -- except RequestException: return None
  | .ok html_text =>
    match websiteParseBody html_text soup with
    | .error _ => .ok none        -- the except Exception handler
    | .ok r => .ok r

/-! ## Stable descending sort (`equity_investments.sort(key=..., reverse=True)`,
line 190)

Python's `list.sort` is stable, also with `reverse=True`: elements with
equal keys keep their relative order. A stable descending sort is uniquely
determined by that, so we embed it as insertion sort that inserts each
element after all elements with a greater-or-equal ratio. -/

/-- Insert `c` into a descending-sorted list, after every element whose
ratio is `≥ c`'s (so earlier-collected equal elements stay first). -/
def insertDesc (c : ChildRec) : List ChildRec → List ChildRec
  | [] => [c]
  | x :: xs =>
    if c.funded_ratio ≤ x.funded_ratio then x :: insertDesc c xs
    else c :: x :: xs

/-- Stable sort, descending by `funded_ratio` — the embedding of
`equity_investments.sort(key=lambda x: x["funded_ratio"], reverse=True)`. -/
def pySortDesc (l : List ChildRec) : List ChildRec :=
  l.foldl (fun acc c => insertDesc c acc) []

/-! ## Concurrent fan-out (`fetch_official_website`, lines 172–190)

The futures complete in a nondeterministic order; the collection loop
(`as_completed`, lines 178–187) appends one record per completed future.
The completion order is an input of the embedding: the collected list is
`sched child_companies` for an arbitrary reordering function `sched`. -/

/-- The collection loop, given each child's website (lines 181–183): the
record is enriched with the website and appended in completion order. -/
def fanoutCollect (website : String × String → Option String)
    (completed : List ChildRec) : List ChildRec :=
  completed.map fun c => { c with website := website (c.name, c.entid) }

/-- The fan-out result: collected in completion order, then sorted
descending by ratio (line 190). -/
def fanout (website : String × String → Option String)
    (completed : List ChildRec) : List ChildRec :=
  pySortDesc (fanoutCollect website completed)

/-- The collection loop with each child's call allowed to raise
(`future.result()`, line 181): the second component counts how often the
`except` branch (lines 184–187) runs. -/
def fanoutCollectE (websiteE : String × String → Except Unit (Option String)) :
    List ChildRec → List ChildRec × Nat
  | [] => ([], 0)
  | c :: cs =>
    let rest := fanoutCollectE websiteE cs
    match websiteE (c.name, c.entid) with
    | .ok w => ({ c with website := w } :: rest.1, rest.2)
    | .error _ => ({ c with website := none } :: rest.1, rest.2 + 1)

/-! ## Lookup pipeline (`fetch_official_website`, lines 151–205) -/

/-- One outbound network request, for the instrumented pipeline. -/
inductive Call where
  | searchCall (key : String)
  | websiteCall (name entid : String)
  | graphCall (entid : String)
deriving DecidableEq

/-- The remote service's behavior: response of the search endpoint per key,
of the graph endpoint per entid, and result of `get_official_website` per
`(name, entid)`. -/
structure Oracles where
  search : String → Option SearchResponse
  graph : String → Option GraphResponse
  website : String × String → Option String

/-- The dict returned by `fetch_official_website` (lines 201–205). -/
structure LookupResult where
  parent_name : Option String
  official_website : Option String
  equity_investments : List ChildRec
deriving DecidableEq

/-- `fetch_official_website` (lines 151–205), instrumented with the list of
network requests it issues. `sched` is the completion order of the fan-out.
`.error ()` = an uncaught exception escapes (aborting the batch). -/
def fetch_official_website (o : Oracles) (sched : List ChildRec → List ChildRec)
    (search_key : String) (equity_threshold : Option Int) :
    Except Unit (LookupResult × List Call) :=
  match get_ent_info (o.search search_key) with
  | none => .ok (⟨none, none, []⟩, [.searchCall search_key])
  | some (parent_name, parent_id) =>
    let official_website := o.website (parent_name, parent_id)
    let calls1 := [Call.searchCall search_key, .websiteCall parent_name parent_id]
    match equity_threshold with
    | none => .ok (⟨some parent_name, official_website, []⟩, calls1)
    | some t =>
      if 0 ≤ t ∧ t ≤ 100 then
        match query_equity_investment (o.graph parent_id) t with
        | .error e => .error e
        | .ok child_companies =>
          let calls2 := calls1 ++ [.graphCall parent_id]
          if child_companies.isEmpty then
            .ok (⟨some parent_name, official_website, []⟩, calls2)
          else
            let completed := sched child_companies
            let collected := fanoutCollect o.website completed
            let calls3 := calls2 ++ completed.map fun c => Call.websiteCall c.name c.entid
            .ok (⟨some parent_name, official_website, pySortDesc collected⟩, calls3)
      else
        .ok (⟨some parent_name, official_website, []⟩, calls1)

/-! ## Report writer (`save_to_csv`, lines 208–227) -/

/-- One CSV row: unit name, website address, ownership. The `csv` module
writes `None` as the empty string; the code additionally maps falsy
websites through `or ""`. -/
structure CsvRow where
  unitName : String
  website : String
  equity : String
deriving DecidableEq

/-- The header row (line 210). -/
def csvHeader : CsvRow := ⟨"单位名称", "官网地址", "股权"⟩

/-- Rows written for one `LookupResult` (lines 215–227): the parent row
always, then one row per child. -/
def rowsOfResult (r : LookupResult) : List CsvRow :=
  ⟨r.parent_name.getD "", r.official_website.getD "", ""⟩ ::
    r.equity_investments.map fun c =>
      ⟨c.name, (c.website.getD ""), Nat.repr c.funded_ratio⟩

/-- `save_to_csv` as the list of rows it writes. -/
def save_to_csv (results : List LookupResult) : List CsvRow :=
  csvHeader :: results.flatMap rowsOfResult

/-! ## Memoization (`@lru_cache(maxsize=128)`, line 100)

`functools.lru_cache` with `maxsize=128` keyed on the full argument tuple
`(ent_name, ent_id, cookie)`. Embedded as an association list in
most-recently-used-first order. -/

/-- Cache key of `get_official_website`: `(ent_name, ent_id, cookie)`. -/
abbrev WebKey := String × String × String

/-- Lookup in the cache. -/
def assocFind (k : WebKey) : List (WebKey × Option String) → Option (Option String)
  | [] => none
  | (k', v) :: rest => if k' = k then some v else assocFind k rest

/-- Remove a key's entry (for the move-to-front on a cache hit). -/
def removeKey (k : WebKey) : List (WebKey × Option String) → List (WebKey × Option String)
  | [] => []
  | (k', v) :: rest =>
    if k' = k then removeKey k rest else (k', v) :: removeKey k rest

/-- Outcome of a sequence of serialized memoized calls: the per-call
`(key, result)` pairs in call order, the final cache state, and the keys
whose calls ran the underlying fetch, in order. -/
structure LruRunOut where
  results : List (WebKey × Option String)
  final : List (WebKey × Option String)
  fetched : List WebKey
deriving DecidableEq

/-- Serialized semantics of the `lru_cache(maxsize=m)` wrapper: on a hit
the entry moves to the front and its cached value is returned with no
fetch; on a miss the underlying fetch runs, the entry is added in front,
and the least recently used entry is evicted when the size would exceed
`m`. The underlying fetch is an arbitrary per-event oracle: `f n k` is
whatever the `n`-th fetch performed in the run returns for key `k`, so a
re-fetch of an evicted key may return a different value than the first
fetch did. Interleaved (multi-threaded) call sequences — under which
`lru_cache` can run the fetch twice for one key when a second miss arrives
before the first result is cached — are outside this model; the program's
per-parent lookups (line 161) invoke the wrapper strictly sequentially,
its fan-out workers (line 174) may interleave. -/
def lruRun (m : Nat) (f : Nat → WebKey → Option String) :
    List WebKey → List (WebKey × Option String) → Nat → LruRunOut
  | [], st, _n => ⟨[], st, []⟩
  | k :: ks, st, n =>
    match assocFind k st with
    | some v =>
      let rest := lruRun m f ks ((k, v) :: removeKey k st) n
      ⟨(k, v) :: rest.results, rest.final, rest.fetched⟩
    | none =>
      let v := f n k
      let rest := lruRun m f ks (((k, v) :: st).take m) (n + 1)
      ⟨(k, v) :: rest.results, rest.final, k :: rest.fetched⟩

/-- The memoized `get_official_website` of the program: `lru_cache` with
`maxsize=128` (line 100) over the underlying page fetch, starting from the
empty cache of a fresh process. -/
def get_official_website_cached (f : Nat → WebKey → Option String)
    (calls : List WebKey) : LruRunOut :=
  lruRun 128 f calls [] 0

/-! ## Helper lemmas -/

/-- Every child record accepted by the query loop passed the
`funded_ratio >= threshold` test. -/
theorem queryChildren_ratio_ge (t : Int) :
    ∀ (cs : List RawChild) (out : List ChildRec),
      queryChildren t cs = .ok out → ∀ c ∈ out, t ≤ (c.funded_ratio : Int) := by
  intro cs
  induction cs with
  | nil =>
    intro out h c hc
    simp only [queryChildren, Except.ok.injEq] at h
    subst h
    simp at hc
  | cons x xs ih =>
    intro out h c hc
    simp only [queryChildren] at h
    cases hp : parseFundedRatio x.fundedRatio with
    | error e => rw [hp] at h; exact absurd h (by simp)
    | ok ov =>
      rw [hp] at h
      cases ov with
      | none => exact ih out h c hc
      | some r =>
        cases hq : queryChildren t xs with
        | error e => rw [hq] at h; exact absurd h (by simp)
        | ok rest =>
          rw [hq] at h
          dsimp only at h
          by_cases hr : t ≤ (r : Int)
          · rw [if_pos hr] at h
            cases h
            rcases List.mem_cons.mp hc with hc1 | hc2
            · subst hc1; exact hr
            · exact ih rest hq c hc2
          · rw [if_neg hr] at h
            cases h
            exact ih _ hq c hc

/-- `insertDesc` produces a permutation of consing. -/
theorem insertDesc_perm (c : ChildRec) (l : List ChildRec) :
    (insertDesc c l).Perm (c :: l) := by
  induction l with
  | nil => exact List.Perm.refl _
  | cons x xs ih =>
    by_cases h : c.funded_ratio ≤ x.funded_ratio
    · simp only [insertDesc, if_pos h]
      exact (ih.cons x).trans (List.Perm.swap c x xs)
    · simp only [insertDesc, if_neg h]
      exact List.Perm.refl _

/-- `insertDesc` preserves descending sortedness. -/
theorem insertDesc_sorted (c : ChildRec) (l : List ChildRec)
    (h : l.Pairwise fun a b => b.funded_ratio ≤ a.funded_ratio) :
    (insertDesc c l).Pairwise fun a b => b.funded_ratio ≤ a.funded_ratio := by
  induction l with
  | nil => simp [insertDesc]
  | cons x xs ih =>
    obtain ⟨hx, hxs⟩ := List.pairwise_cons.mp h
    by_cases hc : c.funded_ratio ≤ x.funded_ratio
    · simp only [insertDesc, if_pos hc]
      refine List.pairwise_cons.mpr ⟨?_, ih hxs⟩
      intro y hy
      rcases List.mem_cons.mp ((insertDesc_perm c xs).mem_iff.mp hy) with h1 | h2
      · subst h1; exact hc
      · exact hx y h2
    · simp only [insertDesc, if_neg hc]
      push_neg at hc
      refine List.pairwise_cons.mpr ⟨?_, h⟩
      intro y hy
      rcases List.mem_cons.mp hy with h1 | h2
      · subst h1; exact le_of_lt hc
      · exact le_trans (hx y h2) (le_of_lt hc)

/-- In a descending-sorted list headed by an element below `r`, no element
has ratio `r`. -/
theorem sorted_head_lt_filter_ratio_nil (r : Nat) (x : ChildRec) (xs : List ChildRec)
    (hs : (x :: xs).Pairwise fun a b => b.funded_ratio ≤ a.funded_ratio)
    (hx : x.funded_ratio < r) :
    (x :: xs).filter (fun c => c.funded_ratio = r) = [] := by
  rw [List.filter_eq_nil_iff]
  intro a ha
  rcases List.mem_cons.mp ha with h1 | h2
  · subst h1; simp; omega
  · obtain ⟨hhead, _⟩ := List.pairwise_cons.mp hs
    have := hhead a h2
    simp
    omega

/-- Stability of `insertDesc`: for any ratio value `r`, the elements of
ratio `r` of `insertDesc c l` are those of `l` followed by `c` (when `c`
has ratio `r`), provided `l` is descending-sorted. -/
theorem insertDesc_filter_ratio (r : Nat) (c : ChildRec) (l : List ChildRec)
    (hs : l.Pairwise fun a b => b.funded_ratio ≤ a.funded_ratio) :
    (insertDesc c l).filter (fun x => x.funded_ratio = r) =
      l.filter (fun x => x.funded_ratio = r) ++
        (if c.funded_ratio = r then [c] else []) := by
  induction l with
  | nil =>
    simp only [insertDesc, List.filter_nil, List.nil_append]
    by_cases hc : c.funded_ratio = r <;> simp [hc]
  | cons x xs ih =>
    obtain ⟨hx, hxs⟩ := List.pairwise_cons.mp hs
    by_cases hc : c.funded_ratio ≤ x.funded_ratio
    · simp only [insertDesc, if_pos hc, List.filter_cons]
      by_cases hxr : x.funded_ratio = r <;> simp [hxr, ih hxs]
    · simp only [insertDesc, if_neg hc]
      push_neg at hc
      by_cases hcr : c.funded_ratio = r
      · have hnil : (x :: xs).filter (fun y => y.funded_ratio = r) = [] := by
          apply sorted_head_lt_filter_ratio_nil r x xs hs
          omega
        rw [List.filter_cons_of_pos (by simp [hcr]), hnil]
        simp [hcr]
      · rw [List.filter_cons_of_neg (by simp [hcr])]
        simp [hcr]

/-- Sortedness of the fold underlying `pySortDesc`. -/
theorem pySortFold_sorted :
    ∀ (l acc : List ChildRec),
      (acc.Pairwise fun a b => b.funded_ratio ≤ a.funded_ratio) →
      ((l.foldl (fun a c => insertDesc c a) acc).Pairwise
        fun a b => b.funded_ratio ≤ a.funded_ratio)
  | [], _acc, h => h
  | c :: cs, acc, h =>
    pySortFold_sorted cs (insertDesc c acc) (insertDesc_sorted c acc h)

/-- The fold underlying `pySortDesc` permutes its inputs. -/
theorem pySortFold_perm :
    ∀ (l acc : List ChildRec),
      (l.foldl (fun a c => insertDesc c a) acc).Perm (acc ++ l)
  | [], acc => by simp
  | c :: cs, acc => by
    have h1 := pySortFold_perm cs (insertDesc c acc)
    have h2 : (insertDesc c acc ++ cs).Perm (acc ++ c :: cs) :=
      ((insertDesc_perm c acc).append_right cs).trans List.perm_middle.symm
    exact h1.trans h2

/-- Stability of the fold underlying `pySortDesc`. -/
theorem pySortFold_filter_ratio (r : Nat) :
    ∀ (l acc : List ChildRec),
      (acc.Pairwise fun a b => b.funded_ratio ≤ a.funded_ratio) →
      (l.foldl (fun a c => insertDesc c a) acc).filter (fun x => x.funded_ratio = r) =
        acc.filter (fun x => x.funded_ratio = r) ++ l.filter (fun x => x.funded_ratio = r)
  | [], _acc, _h => by simp
  | c :: cs, acc, h => by
    have ih := pySortFold_filter_ratio r cs (insertDesc c acc) (insertDesc_sorted c acc h)
    simp only [List.foldl_cons] at ih ⊢
    rw [ih, insertDesc_filter_ratio r c acc h, List.filter_cons]
    by_cases hc : c.funded_ratio = r
    · simp [hc]
    · simp [hc]

/-- `assocFind` misses exactly the keys that are not in the cache. -/
theorem assocFind_eq_none_iff (k : WebKey) :
    ∀ (st : List (WebKey × Option String)),
      assocFind k st = none ↔ k ∉ st.map Prod.fst
  | [] => by simp [assocFind]
  | (k', v) :: rest => by
    simp only [assocFind, List.map_cons, List.mem_cons]
    by_cases h : k' = k
    · subst h; simp
    · simp only [if_neg h]
      rw [assocFind_eq_none_iff k rest]
      constructor
      · intro hn hor
        rcases hor with h1 | h2
        · exact h h1.symm
        · exact hn h2
      · intro hn hin
        exact hn (Or.inr hin)

/-- A found entry is an entry of the cache. -/
theorem assocFind_mem (k : WebKey) :
    ∀ (st : List (WebKey × Option String)) (v : Option String),
      assocFind k st = some v → (k, v) ∈ st
  | [], v => by simp [assocFind]
  | (k', v') :: rest, v => by
    simp only [assocFind]
    by_cases h : k' = k
    · subst h
      intro hv
      rw [if_pos rfl] at hv
      cases hv
      simp
    · rw [if_neg h]
      intro hv
      exact List.mem_cons_of_mem _ (assocFind_mem k rest v hv)

/-- Entries of `removeKey` are entries of the original cache. -/
theorem removeKey_subset (k : WebKey) :
    ∀ (st : List (WebKey × Option String)) (e : WebKey × Option String),
      e ∈ removeKey k st → e ∈ st
  | [], e => by simp [removeKey]
  | (k', v') :: rest, e => by
    simp only [removeKey]
    by_cases h : k' = k
    · rw [if_pos h]
      intro he
      exact List.mem_cons_of_mem _ (removeKey_subset k rest e he)
    · rw [if_neg h]
      intro he
      rcases List.mem_cons.mp he with h1 | h2
      · exact h1 ▸ List.mem_cons_self _ _
      · exact List.mem_cons_of_mem _ (removeKey_subset k rest e h2)

/-- The keys of `removeKey k st` are the keys of `st` other than `k`. -/
theorem removeKey_map_fst (k : WebKey) :
    ∀ (st : List (WebKey × Option String)),
      (removeKey k st).map Prod.fst = (st.map Prod.fst).filter (fun x => x ≠ k)
  | [] => by simp [removeKey]
  | (k', v') :: rest => by
    simp only [removeKey, List.map_cons, List.filter_cons]
    by_cases h : k' = k
    · subst h
      simp [removeKey_map_fst k' rest]
    · simp [h, removeKey_map_fst k rest]

/-- Removing a present key shrinks the cache. -/
theorem removeKey_length_lt (k : WebKey) :
    ∀ (st : List (WebKey × Option String)),
      k ∈ st.map Prod.fst → (removeKey k st).length < st.length
  | [] => by simp
  | (k', v') :: rest => by
    intro hk
    simp only [removeKey]
    by_cases h : k' = k
    · rw [if_pos h]
      have : (removeKey k rest).length ≤ rest.length := by
        have h1 := congrArg List.length (removeKey_map_fst k rest)
        simp only [List.length_map] at h1
        rw [h1]
        exact le_trans (List.length_filter_le _ _) (by simp)
      simp only [List.length_cons]
      omega
    · rw [if_neg h]
      simp only [List.map_cons, List.mem_cons] at hk
      rcases hk with h1 | h2
      · exact absurd h1.symm h
      · have := removeKey_length_lt k rest h2
        simp only [List.length_cons]
        omega

/-- `removeKey` leaves other keys' bindings alone. -/
theorem assocFind_removeKey_ne (k k' : WebKey) (hne : k' ≠ k) :
    ∀ st : List (WebKey × Option String),
      assocFind k' (removeKey k st) = assocFind k' st
  | [] => rfl
  | (k0, v0) :: rest => by
    simp only [removeKey, assocFind]
    by_cases h0 : k0 = k
    · rw [if_pos h0, assocFind_removeKey_ne k k' hne rest,
        if_neg (fun hh => hne (by rw [← hh, h0]))]
    · rw [if_neg h0]
      simp only [assocFind]
      by_cases h1 : k0 = k'
      · rw [if_pos h1, if_pos h1]
      · rw [if_neg h1, if_neg h1, assocFind_removeKey_ne k k' hne rest]

/-- The cache never exceeds the capacity. -/
theorem lruRun_final_length_le (m : Nat) (f : Nat → WebKey → Option String) :
    ∀ (ks : List WebKey) (st : List (WebKey × Option String)) (n : Nat),
      st.length ≤ m → ((lruRun m f ks st n).final).length ≤ m
  | [], _st, _n, h => h
  | k :: ks, st, n, h => by
    simp only [lruRun]
    cases hf : assocFind k st with
    | some v =>
      dsimp only
      apply lruRun_final_length_le
      have hk : k ∈ st.map Prod.fst := by
        by_contra hn
        rw [(assocFind_eq_none_iff k st).mpr hn] at hf
        exact Option.noConfusion hf
      have hlt := removeKey_length_lt k st hk
      simp only [List.length_cons]
      omega
    | none =>
      dsimp only
      apply lruRun_final_length_le
      simp only [List.length_take]
      omega

/-- On a cache hit, the key set of the cache is unchanged. -/
theorem toFinset_keys_hit (k : WebKey) (keys : List WebKey) (hk : k ∈ keys) :
    (k :: keys.filter (fun x => x ≠ k)).toFinset = keys.toFinset := by
  ext x
  simp only [List.toFinset_cons, Finset.mem_insert, List.mem_toFinset, List.mem_filter,
    decide_eq_true_eq]
  by_cases hx : x = k
  · subst hx; simp [hk]
  · simp [hx]

/-- `List.count` over `WebKey` with the derived product `BEq` agrees with
the count over the decidable-equality `BEq`. -/
theorem count_beq_eq_count_decEq (k : WebKey) :
    ∀ l : List WebKey, l.count k = @List.count _ instBEqOfDecidableEq k l
  | [] => rfl
  | x :: xs => by
    rw [List.count_cons, @List.count_cons _ instBEqOfDecidableEq,
      count_beq_eq_count_decEq k xs]
    by_cases h : x = k <;> simp [h, instBEqOfDecidableEq]

/-- As long as the number of distinct keys that will ever be touched stays
within the capacity, no eviction happens, so: the fetch log is
duplicate-free (each key fetched at most once), only keys absent from the
initial cache are fetched, every call with a key cached at value `v`
returns `v`, and any two calls with the same initially-uncached key return
the same value (the key's single fetch result). -/
theorem lruRun_no_evict_invariant (m : Nat) (f : Nat → WebKey → Option String) :
    ∀ (ks : List WebKey) (st : List (WebKey × Option String)) (n : Nat),
      ((st.map Prod.fst).Nodup) →
      (((st.map Prod.fst) ++ ks).toFinset.card ≤ m) →
      (lruRun m f ks st n).fetched.Nodup ∧
        (∀ k ∈ (lruRun m f ks st n).fetched, k ∉ st.map Prod.fst) ∧
        (∀ k v, assocFind k st = some v →
          ∀ r, (k, r) ∈ (lruRun m f ks st n).results → r = v) ∧
        (∀ k, assocFind k st = none →
          ∀ r1 r2, (k, r1) ∈ (lruRun m f ks st n).results →
            (k, r2) ∈ (lruRun m f ks st n).results → r1 = r2)
  | [], _st, _n, _hnd, _hcard => by
    refine ⟨by simp [lruRun], by simp [lruRun], ?_, ?_⟩ <;> simp [lruRun]
  | k :: ks, st, n, hnd, hcard => by
    simp only [lruRun]
    cases hf : assocFind k st with
    | some v =>
      dsimp only
      have hk : k ∈ st.map Prod.fst := by
        by_contra hn
        rw [(assocFind_eq_none_iff k st).mpr hn] at hf
        exact Option.noConfusion hf
      have hkeys : ((k, v) :: removeKey k st).map Prod.fst =
          k :: (st.map Prod.fst).filter (fun x => x ≠ k) := by
        simp [removeKey_map_fst]
      have hnd' : (((k, v) :: removeKey k st).map Prod.fst).Nodup := by
        rw [hkeys]
        refine List.nodup_cons.mpr ⟨?_, hnd.filter _⟩
        intro hmem
        have := List.of_mem_filter hmem
        simp at this
      have hfin : (((k, v) :: removeKey k st).map Prod.fst).toFinset =
          (st.map Prod.fst).toFinset := by
        rw [hkeys]
        exact toFinset_keys_hit k _ hk
      have hcard' : ((((k, v) :: removeKey k st).map Prod.fst) ++ ks).toFinset.card
          ≤ m := by
        refine le_trans (Finset.card_le_card ?_) hcard
        rw [List.toFinset_append, List.toFinset_append, hfin]
        intro x hx
        simp only [Finset.mem_union, List.mem_toFinset, List.toFinset_cons,
          Finset.mem_insert] at hx ⊢
        tauto
      have hfind' : ∀ k' v', assocFind k' st = some v' →
          assocFind k' ((k, v) :: removeKey k st) = some v' := by
        intro k' v' hv'
        by_cases hkk : k' = k
        · subst hkk
          rw [hv'] at hf
          cases hf
          simp [assocFind]
        · simp only [assocFind]
          rw [if_neg (fun hh => hkk hh.symm)]
          rw [assocFind_removeKey_ne k k' hkk st]
          exact hv'
      obtain ⟨ih1, ih2, ih3, ih4⟩ :=
        lruRun_no_evict_invariant m f ks ((k, v) :: removeKey k st) n hnd' hcard'
      refine ⟨ih1, ?_, ?_, ?_⟩
      · intro k' hk' hmem
        have h1 := ih2 k' hk'
        rw [hkeys] at h1
        simp only [List.mem_cons, List.mem_filter, decide_eq_true_eq] at h1
        push_neg at h1
        exact h1.1 (h1.2 hmem)
      · intro k' v' hv' r hr
        rcases List.mem_cons.mp hr with h1 | h2
        · obtain ⟨he1, he2⟩ := Prod.mk.injEq .. ▸ h1
          subst he1
          rw [hv'] at hf
          cases hf
          exact he2
        · exact ih3 k' v' (hfind' k' v' hv') r h2
      · intro k'' hk'' r1 r2 hr1 hr2
        have hkk : k'' ≠ k := by
          intro he
          subst he
          rw [hk''] at hf
          exact Option.noConfusion hf
        have hfind'' : assocFind k'' ((k, v) :: removeKey k st) = none := by
          simp only [assocFind]
          rw [if_neg (fun hh => hkk hh.symm), assocFind_removeKey_ne k k'' hkk st]
          exact hk''
        have hr1' : (k'', r1) ∈ (lruRun m f ks ((k, v) :: removeKey k st) n).results := by
          rcases List.mem_cons.mp hr1 with h1 | h2
          · exact absurd (congrArg Prod.fst h1) hkk
          · exact h2
        have hr2' : (k'', r2) ∈ (lruRun m f ks ((k, v) :: removeKey k st) n).results := by
          rcases List.mem_cons.mp hr2 with h1 | h2
          · exact absurd (congrArg Prod.fst h1) hkk
          · exact h2
        exact ih4 k'' hfind'' r1 r2 hr1' hr2'
    | none =>
      dsimp only
      have hk : k ∉ st.map Prod.fst := (assocFind_eq_none_iff k st).mp hf
      have hlen : st.length + 1 ≤ m := by
        have hsub : insert k (st.map Prod.fst).toFinset ⊆
            ((st.map Prod.fst) ++ k :: ks).toFinset := by
          intro x hx
          simp only [Finset.mem_insert, List.mem_toFinset] at hx
          simp only [List.toFinset_append, Finset.mem_union, List.mem_toFinset,
            List.mem_cons]
          tauto
        have h2 := le_trans (Finset.card_le_card hsub) hcard
        rw [Finset.card_insert_of_not_mem (by simpa using hk),
          List.toFinset_card_of_nodup hnd] at h2
        simpa using h2
      have htake : ((k, f n k) :: st).take m = (k, f n k) :: st := by
        apply List.take_of_length_le
        simpa using hlen
      rw [htake]
      have hnd' : (((k, f n k) :: st).map Prod.fst).Nodup := by
        simp only [List.map_cons]
        exact List.nodup_cons.mpr ⟨hk, hnd⟩
      have hcard' : ((((k, f n k) :: st).map Prod.fst) ++ ks).toFinset.card ≤ m := by
        refine le_trans (le_of_eq (congrArg Finset.card ?_)) hcard
        simp only [List.map_cons]
        ext x
        simp only [List.toFinset_append, List.toFinset_cons, Finset.mem_union,
          Finset.mem_insert, List.mem_toFinset]
        tauto
      obtain ⟨ih1, ih2, ih3, ih4⟩ :=
        lruRun_no_evict_invariant m f ks ((k, f n k) :: st) (n + 1) hnd' hcard'
      have hfindk : assocFind k ((k, f n k) :: st) = some (f n k) := by
        simp [assocFind]
      refine ⟨?_, ?_, ?_, ?_⟩
      · refine List.nodup_cons.mpr ⟨?_, ih1⟩
        intro hmem
        have := ih2 k hmem
        simp at this
      · intro k' hk'
        rcases List.mem_cons.mp hk' with h1 | h2
        · subst h1; exact hk
        · have := ih2 k' h2
          simp only [List.map_cons, List.mem_cons] at this
          push_neg at this
          exact this.2
      · intro k' v' hv' r hr
        have hkk : k' ≠ k := by
          intro he
          subst he
          rw [hv'] at hf
          exact Option.noConfusion hf
        have hfind' : assocFind k' ((k, f n k) :: st) = some v' := by
          simp only [assocFind]
          rw [if_neg (fun hh => hkk hh.symm)]
          exact hv'
        rcases List.mem_cons.mp hr with h1 | h2
        · exact absurd (congrArg Prod.fst h1 : k' = k) hkk
        · exact ih3 k' v' hfind' r h2
      · intro k'' hk'' r1 r2 hr1 hr2
        by_cases hkk : k'' = k
        · subst hkk
          have hval : ∀ r, (k'', r) ∈ (k'', f n k'') :: (lruRun m f ks
              ((k'', f n k'') :: st) (n + 1)).results → r = f n k'' := by
            intro r hr
            rcases List.mem_cons.mp hr with h1 | h2
            · obtain ⟨-, he2⟩ := Prod.mk.injEq .. ▸ h1
              exact he2
            · exact ih3 k'' (f n k'') hfindk r h2
          rw [hval r1 hr1, hval r2 hr2]
        · have hfind'' : assocFind k'' ((k, f n k) :: st) = none := by
            simp only [assocFind]
            rw [if_neg (fun hh => hkk hh.symm)]
            exact hk''
          have hr1' : (k'', r1) ∈ (lruRun m f ks ((k, f n k) :: st) (n + 1)).results := by
            rcases List.mem_cons.mp hr1 with h1 | h2
            · exact absurd (congrArg Prod.fst h1) hkk
            · exact h2
          have hr2' : (k'', r2) ∈ (lruRun m f ks ((k, f n k) :: st) (n + 1)).results := by
            rcases List.mem_cons.mp hr2 with h1 | h2
            · exact absurd (congrArg Prod.fst h1) hkk
            · exact h2
          exact ih4 k'' hfind'' r1 r2 hr1' hr2'

/-- A digit is not `%`. -/
theorem isDigit_ne_percent {c : Char} (h : c.isDigit = true) : c ≠ '%' := by
  intro he; subst he; simp [Char.isDigit] at h

/-- A digit is not `.`. -/
theorem isDigit_ne_dot {c : Char} (h : c.isDigit = true) : c ≠ '.' := by
  intro he; subst he; simp [Char.isDigit] at h

/-- A digit's code point is at most `'9'`. -/
theorem isDigit_toNat_le {c : Char} (h : c.isDigit = true) : c.toNat ≤ 57 := by
  unfold Char.isDigit at h
  simp only [Bool.and_eq_true, decide_eq_true_eq] at h
  exact h.2

/-- `takeWhile` walks through a prefix whose elements all satisfy the
predicate. -/
theorem takeWhile_append_of_all (p : Char → Bool) :
    ∀ (l₁ l₂ : List Char), (∀ x ∈ l₁, p x = true) →
      (l₁ ++ l₂).takeWhile p = l₁ ++ l₂.takeWhile p
  | [], _l₂, _h => rfl
  | x :: xs, l₂, h => by
    simp only [List.cons_append, List.takeWhile_cons, h x (List.mem_cons_self x xs), if_pos]
    rw [takeWhile_append_of_all p xs l₂ (fun y hy => h y (List.mem_cons_of_mem _ hy))]

/-- `stripTrailingPercent` either leaves the list unchanged or removes one
final `%`. -/
theorem stripTrailingPercent_eq (l : List Char) :
    stripTrailingPercent l = l ∨ l = stripTrailingPercent l ++ ['%'] := by
  unfold stripTrailingPercent
  by_cases h : l.getLast? = some '%'
  · rw [if_pos h]
    right
    have hne : l ≠ [] := by
      intro he; subst he; simp at h
    have hlast : l.getLast hne = '%' := by
      rw [List.getLast?_eq_getLast l hne] at h
      exact Option.some.inj h
    conv_lhs => rw [← List.dropLast_append_getLast hne, hlast]
  · rw [if_neg h]
    left
    rfl

/-- Structure of a list accepted by `matchNumBody`: its digit prefix is
nonempty, and the remainder is empty or a dot followed by a nonempty digit
run. -/
theorem matchNumBody_spec (l : List Char) (h : matchNumBody l = true) :
    (∀ c ∈ l.takeWhile Char.isDigit, c.isDigit = true) ∧
    l.takeWhile Char.isDigit ≠ [] ∧
    (l.dropWhile Char.isDigit = [] ∨
      ∃ gs, l.dropWhile Char.isDigit = '.' :: gs ∧ gs ≠ [] ∧
        ∀ c ∈ gs, c.isDigit = true) := by
  refine ⟨fun c hc => List.mem_takeWhile_imp hc, ?_, ?_⟩
  · unfold matchNumBody at h
    simp only [Bool.and_eq_true, Bool.not_eq_true'] at h
    exact List.isEmpty_eq_false.mp h.1
  · unfold matchNumBody at h
    simp only [Bool.and_eq_true] at h
    cases hrest : l.dropWhile Char.isDigit with
    | nil => exact Or.inl rfl
    | cons r rs =>
      right
      rw [hrest] at h
      obtain ⟨-, h2⟩ := h
      dsimp only at h2
      simp only [Bool.and_eq_true, decide_eq_true_eq, Bool.not_eq_true',
        List.all_eq_true] at h2
      obtain ⟨⟨hr, hne⟩, hdig⟩ := h2
      exact ⟨rs, by rw [hr], List.isEmpty_eq_false.mp hne, hdig⟩

/-- Bound on the accumulator-style decimal value of a digit string. -/
theorem foldl_digits_lt (a : Nat) :
    ∀ (l : List Char), (∀ c ∈ l, c.isDigit = true) →
      l.foldl (fun n c => 10 * n + (c.toNat - 48)) a < (a + 1) * 10 ^ l.length := by
  intro l
  induction l generalizing a with
  | nil => intro _; simp
  | cons c cs ih =>
    intro hdig
    have hd : c.toNat - 48 ≤ 9 := by
      have := isDigit_toNat_le (hdig c (List.mem_cons_self c cs))
      omega
    have ih' := ih (10 * a + (c.toNat - 48))
      (fun x hx => hdig x (List.mem_cons_of_mem _ hx))
    calc (c :: cs).foldl (fun n c => 10 * n + (c.toNat - 48)) a
        = cs.foldl (fun n c => 10 * n + (c.toNat - 48)) (10 * a + (c.toNat - 48)) := rfl
      _ < (10 * a + (c.toNat - 48) + 1) * 10 ^ cs.length := ih'
      _ ≤ ((a + 1) * 10) * 10 ^ cs.length := by
          have : 10 * a + (c.toNat - 48) + 1 ≤ (a + 1) * 10 := by omega
          exact Nat.mul_le_mul_right _ this
      _ = (a + 1) * 10 ^ (c :: cs).length := by
          simp [List.length_cons, pow_succ]
          ring

/-- The value of a nonempty digit run is below `10 ^ length`. -/
theorem natOfDigits_lt_pow (l : List Char) (h : ∀ c ∈ l, c.isDigit = true) :
    natOfDigits l < 10 ^ l.length := by
  have := foldl_digits_lt 0 l h
  simpa [natOfDigits] using this

/-- The floor of `D + F/10^m` with `F < 10^m` is `D`. -/
theorem floor_intPart (D F m : Nat) (h : F < 10 ^ m) :
    ⌊(D : ℚ) + (F : ℚ) / 10 ^ m⌋ = (D : ℤ) := by
  rw [Int.floor_eq_iff]
  constructor
  · push_cast
    have : (0 : ℚ) ≤ (F : ℚ) / 10 ^ m := by positivity
    linarith
  · push_cast
    have hlt : (F : ℚ) / 10 ^ m < 1 := by
      rw [div_lt_one (by positivity)]
      exact_mod_cast h
    linarith

/-- For a string matching the spec's pattern, removing all `%` equals
removing the one trailing `%`: no `%` occurs elsewhere. -/
theorem stripAll_percent_of_match (s : String) (h : specPercentRegexMatch s = true) :
    stripAll '%' s.toList = stripTrailingPercent s.toList := by
  obtain ⟨hds, _hne, hrest⟩ := matchNumBody_spec _ h
  have hnop : ∀ x ∈ stripTrailingPercent s.toList, x ≠ '%' := by
    intro x hx
    rw [← List.takeWhile_append_dropWhile Char.isDigit (stripTrailingPercent s.toList)]
      at hx
    rcases List.mem_append.mp hx with h1 | h2
    · exact isDigit_ne_percent (hds x h1)
    · rcases hrest with hr | ⟨gs, hgs, _, hdig⟩
      · rw [hr] at h2; simp at h2
      · rw [hgs] at h2
        rcases List.mem_cons.mp h2 with h3 | h4
        · subst h3; decide
        · exact isDigit_ne_percent (hdig x h4)
  rcases stripTrailingPercent_eq s.toList with heq | heq
  · rw [heq]
    rw [heq] at hnop
    exact List.filter_eq_self.mpr (fun a ha => by simpa using hnop a ha)
  · have h1 : (stripTrailingPercent s.toList).filter (fun x => x ≠ '%') =
        stripTrailingPercent s.toList :=
      List.filter_eq_self.mpr (fun a ha => by simpa using hnop a ha)
    conv_lhs => rw [stripAll, heq]
    rw [List.filter_append, h1]
    simp

/-- For a string matching the spec's pattern: the code accepts it, the
parsed value is the value of the digit prefix, and that value is the floor
of the exact numeric value. -/
theorem parse_and_floor_of_match (s : String) (h : specPercentRegexMatch s = true) :
    parseFundedRatio s =
      .ok (some (natOfDigits ((stripTrailingPercent s.toList).takeWhile Char.isDigit))) ∧
    ⌊specNumericValue s⌋ =
      (natOfDigits ((stripTrailingPercent s.toList).takeWhile Char.isDigit) : ℤ) := by
  obtain ⟨hds, hne, hrest⟩ := matchNumBody_spec _ h
  have hstrip := stripAll_percent_of_match s h
  have hsplit := List.takeWhile_append_dropWhile Char.isDigit (stripTrailingPercent s.toList)
  rcases hrest with hr | ⟨gs, hgs, hgne, hgdig⟩
  · -- no fractional part: the body is just the digit run
    have htw_eq : (stripTrailingPercent s.toList).takeWhile Char.isDigit =
        stripTrailingPercent s.toList := by
      conv_rhs => rw [← hsplit, hr]
      rw [List.append_nil]
    have hdotstrip : stripAll '.' (stripTrailingPercent s.toList) =
        stripTrailingPercent s.toList :=
      List.filter_eq_self.mpr
        (fun a ha => by simpa using isDigit_ne_dot (hds a (by rw [htw_eq]; exact ha)))
    have hisdig : pyIsdigit (stripAll '.' (stripTrailingPercent s.toList)) = true := by
      rw [hdotstrip]
      unfold pyIsdigit
      rw [List.isEmpty_eq_false.mpr (by rw [← htw_eq]; exact hne)]
      simp only [Bool.not_false, Bool.true_and, List.all_eq_true]
      exact fun a ha => hds a (by rw [htw_eq]; exact ha)
    have hfloat : pyIntFloat (stripTrailingPercent s.toList) =
        .ok (natOfDigits (stripTrailingPercent s.toList)) := by
      unfold pyIntFloat
      have hfil : (stripTrailingPercent s.toList).filter (fun x => x = '.') = [] :=
        List.filter_eq_nil_iff.mpr
          (fun a ha => by simpa using isDigit_ne_dot (hds a (by rw [htw_eq]; exact ha)))
      have htw : (stripTrailingPercent s.toList).takeWhile (fun x => x ≠ '.') =
          stripTrailingPercent s.toList := by
        have hall := takeWhile_append_of_all (fun x => decide (x ≠ '.'))
          (stripTrailingPercent s.toList) []
          (fun x hx => by simpa using isDigit_ne_dot (hds x (by rw [htw_eq]; exact hx)))
        simpa using hall
      rw [hfil, htw]
      simp
    constructor
    · unfold parseFundedRatio
      rw [htw_eq]
      simp only [hstrip, hisdig, if_true, hfloat]
    · rw [htw_eq]
      unfold specNumericValue
      dsimp only
      rw [hr]
      simp [natOfDigits, Int.floor_natCast]
      exact congrArg (List.foldl (fun n c => 10 * n + (c.toNat - 48)) 0) htw_eq
  · -- fractional part: the body is digits, a dot, digits
    have hlsplit : (stripTrailingPercent s.toList).takeWhile Char.isDigit ++ '.' :: gs =
        stripTrailingPercent s.toList := by
      conv_rhs => rw [← hsplit, hgs]
    have hdotstrip : stripAll '.' (stripTrailingPercent s.toList) =
        (stripTrailingPercent s.toList).takeWhile Char.isDigit ++ gs := by
      conv_lhs => rw [← hlsplit]
      unfold stripAll
      rw [List.filter_append]
      congr 1
      · exact List.filter_eq_self.mpr
          (fun a ha => by simpa using isDigit_ne_dot (hds a ha))
      · rw [List.filter_cons_of_neg (by simp)]
        exact List.filter_eq_self.mpr
          (fun a ha => by simpa using isDigit_ne_dot (hgdig a ha))
    have hisdig : pyIsdigit (stripAll '.' (stripTrailingPercent s.toList)) = true := by
      rw [hdotstrip]
      unfold pyIsdigit
      have h1 : ((stripTrailingPercent s.toList).takeWhile Char.isDigit ++ gs).isEmpty
          = false := by
        rw [List.isEmpty_eq_false]
        simp only [ne_eq, List.append_eq_nil, not_and]
        intro hcon
        exact absurd hcon hne
      rw [h1]
      simp only [Bool.not_false, Bool.true_and, List.all_append, Bool.and_eq_true,
        List.all_eq_true]
      exact ⟨hds, hgdig⟩
    have hfloat : pyIntFloat (stripTrailingPercent s.toList) =
        .ok (natOfDigits ((stripTrailingPercent s.toList).takeWhile Char.isDigit)) := by
      unfold pyIntFloat
      have hfil : (stripTrailingPercent s.toList).filter (fun x => x = '.') = ['.'] := by
        conv_lhs => rw [← hlsplit]
        rw [List.filter_append]
        rw [List.filter_eq_nil_iff.mpr
          (fun a ha => by simpa using isDigit_ne_dot (hds a ha))]
        rw [List.filter_cons_of_pos (by simp)]
        rw [List.filter_eq_nil_iff.mpr
          (fun a ha => by simpa using isDigit_ne_dot (hgdig a ha))]
        rfl
      have htw : (stripTrailingPercent s.toList).takeWhile (fun x => x ≠ '.') =
          (stripTrailingPercent s.toList).takeWhile Char.isDigit := by
        conv_lhs => rw [← hlsplit]
        rw [takeWhile_append_of_all (fun x => decide (x ≠ '.')) _ ('.' :: gs)
          (fun x hx => by simpa using isDigit_ne_dot (hds x hx))]
        rw [List.takeWhile_cons]
        simp
      rw [hfil, htw]
      simp
    constructor
    · unfold parseFundedRatio
      simp only [hstrip, hisdig, if_true, hfloat]
    · unfold specNumericValue
      dsimp only
      rw [hgs]
      simp only [List.drop_succ_cons, List.drop_zero]
      exact floor_intPart _ _ _ (natOfDigits_lt_pow gs hgdig)

/-! ## Claim theorems -/

/-- C1 (amended): on ASCII strings (where Python's `str.isdigit` is the
ASCII digit test) of at most 15 characters (where `int(float(.))` is exact
decimal truncation): for every string matching `^\\d+(\\.\\d+)?%?$` the
extracted ownership value equals the floor of the numeric value; but the
code's acceptance is broader than the pattern — it strips **all** percent
signs (anywhere, not only trailing) and accepts whenever, after removing
**all** decimal points, a nonempty all-digit string remains. An accepted
string with at most one decimal point yields the truncation (the digits
before the dot); an accepted string with two or more decimal points raises
an uncaught error instead of being excluded (this and the rejection branch
need no length bound). Only strings failing the digit test are excluded.
Outside this domain the original claim fails further, in ways this
embedding does not model: `float`'s round-to-nearest gives
`int(float("2.9999999999999999")) = 3` (floor is 2), `int(float("9"*400))`
raises `OverflowError`, and `str.isdigit` accepts non-ASCII Unicode digits
(`"٥"` is included with value 5; `"²"` passes the guard and `float`
raises). -/
theorem c1_percentage_parsing (s : String) :
    ((∀ c ∈ s.toList, c.toNat ≤ 127) → s.toList.length ≤ 15 →
      specPercentRegexMatch s = true →
      parseFundedRatio s = .ok (some (⌊specNumericValue s⌋.toNat))) ∧
    ((∀ c ∈ s.toList, c.toNat ≤ 127) →
      pyIsdigit (stripAll '.' (stripAll '%' s.toList)) = false →
      parseFundedRatio s = .ok none) ∧
    ((∀ c ∈ s.toList, c.toNat ≤ 127) → s.toList.length ≤ 15 →
      pyIsdigit (stripAll '.' (stripAll '%' s.toList)) = true →
      ((stripAll '%' s.toList).filter (fun x => x = '.')).length ≤ 1 →
      parseFundedRatio s =
        .ok (some (natOfDigits ((stripAll '%' s.toList).takeWhile (fun x => x ≠ '.'))))) ∧
    ((∀ c ∈ s.toList, c.toNat ≤ 127) →
      pyIsdigit (stripAll '.' (stripAll '%' s.toList)) = true →
      2 ≤ ((stripAll '%' s.toList).filter (fun x => x = '.')).length →
      parseFundedRatio s = .error ()) := by
  refine ⟨?_, ?_, ?_, ?_⟩
  · intro _hascii _hlen h
    obtain ⟨hp, hf⟩ := parse_and_floor_of_match s h
    rw [hp, hf, Int.toNat_natCast]
  · intro _hascii h2
    have h2' : pyIsdigit (stripAll '.' (stripAll '%' s.data)) = false := h2
    unfold parseFundedRatio
    dsimp only
    rw [if_neg (by simp [h2'])]
  · intro _hascii _hlen h3 hdots
    unfold parseFundedRatio
    dsimp only
    rw [if_pos h3]
    unfold pyIntFloat
    rw [if_pos hdots]
  · intro _hascii h4 hdots
    unfold parseFundedRatio
    dsimp only
    rw [if_pos h4]
    unfold pyIntFloat
    rw [if_neg (by omega)]

/-- Witness for C1 at concrete ASCII strings: `"12.5%"` (matches the
pattern, floor extracted), `"abc"` (rejected), `"%50"` (accepted, value by
truncation), `"1.2.3"` (uncaught error). -/
theorem c1_percentage_parsing_witness :
    parseFundedRatio "12.5%" = .ok (some (⌊specNumericValue "12.5%"⌋.toNat)) ∧
    parseFundedRatio "abc" = .ok none ∧
    parseFundedRatio "%50" =
      .ok (some (natOfDigits ((stripAll '%' "%50".toList).takeWhile (fun x => x ≠ '.')))) ∧
    parseFundedRatio "1.2.3" = .error () :=
  ⟨(c1_percentage_parsing "12.5%").1 (by decide) (by decide) rfl,
   (c1_percentage_parsing "abc").2.1 (by decide) rfl,
   (c1_percentage_parsing "%50").2.2.1 (by decide) (by decide) rfl (by decide),
   (c1_percentage_parsing "1.2.3").2.2.2 (by decide) rfl (by decide)⟩

/-- C1 counterexample: `"1."` does **not** match `^\d+(\.\d+)?%?$`, yet the
equity graph query does not exclude the child — it is included with
extracted value `1`. -/
theorem c1_nonmatching_included_counterexample :
    specPercentRegexMatch "1." = false ∧
    query_equity_investment (some ⟨true, true, [⟨"丙", "id3", "1."⟩]⟩) 0 =
      .ok [⟨"丙", "id3", 1, none⟩] :=
  ⟨rfl, rfl⟩

/-- C2 (amended): the fan-out output is sorted non-increasing by ownership
percentage for **every** completion order, and is a permutation of the
collected records; children with equal percentages appear in the order in
which their fetches *completed* (the stable sort keeps, for each ratio
value, the collection order) — not in graph-query response order. -/
theorem c2_fanout_sorted_ties_in_completion_order
    (website : String × String → Option String) (completed : List ChildRec) :
    ((fanout website completed).Pairwise fun a b => b.funded_ratio ≤ a.funded_ratio) ∧
    (fanout website completed).Perm (fanoutCollect website completed) ∧
    ∀ r, (fanout website completed).filter (fun c => c.funded_ratio = r) =
      (fanoutCollect website completed).filter (fun c => c.funded_ratio = r) := by
  refine ⟨pySortFold_sorted _ [] (List.Pairwise.nil), ?_, ?_⟩
  · have h := pySortFold_perm (fanoutCollect website completed) []
    simpa [fanout, pySortDesc] using h
  · intro r
    have h := pySortFold_filter_ratio r (fanoutCollect website completed) []
      (List.Pairwise.nil)
    simpa [fanout, pySortDesc] using h

/-- C2 counterexample: two children of equal ratio, returned by the graph
query in the order `甲, 乙` but completing in the order `乙, 甲`, end up in
completion order `乙, 甲` — not in query-response order. -/
theorem c2_equal_ratio_query_order_counterexample :
    ([⟨"乙", "idB", 50, none⟩, ⟨"甲", "idA", 50, none⟩] : List ChildRec).Perm
        [⟨"甲", "idA", 50, none⟩, ⟨"乙", "idB", 50, none⟩] ∧
    fanout (fun _ => none) [⟨"乙", "idB", 50, none⟩, ⟨"甲", "idA", 50, none⟩] =
        [⟨"乙", "idB", 50, none⟩, ⟨"甲", "idA", 50, none⟩] ∧
    ([⟨"乙", "idB", 50, none⟩, ⟨"甲", "idA", 50, none⟩] : List ChildRec) ≠
        [⟨"甲", "idA", 50, none⟩, ⟨"乙", "idB", 50, none⟩] := by
  refine ⟨List.Perm.swap _ _ _, rfl, by decide⟩

/-- C6: every `ChildInvestment` record produced by the equity graph query
has `ownershipPercent` (i.e. `funded_ratio`) greater than or equal to the
configured threshold. -/
theorem c6_children_meet_threshold (resp : Option GraphResponse) (t : Int)
    (out : List ChildRec) (h : query_equity_investment resp t = .ok out) :
    ∀ c ∈ out, t ≤ (c.funded_ratio : Int) := by
  cases resp with
  | none =>
    simp only [query_equity_investment, Except.ok.injEq] at h
    subst h
    simp
  | some data =>
    simp only [query_equity_investment] at h
    by_cases hs : data.success && data.dataTruthy
    · rw [if_pos hs] at h
      exact queryChildren_ratio_ge t data.children out h
    · rw [if_neg hs] at h
      cases h
      simp

/-- Witness for C6 at a concrete response: the single child with ratio
string `"50"` and threshold `10` satisfies the invariant. -/
theorem c6_children_meet_threshold_witness :
    (10 : Int) ≤ ((ChildRec.mk "甲" "id1" 50 none).funded_ratio : Int) :=
  c6_children_meet_threshold
    (some ⟨true, true, [⟨"甲", "id1", "50"⟩]⟩) 10
    [ChildRec.mk "甲" "id1" 50 none] rfl
    (ChildRec.mk "甲" "id1" 50 none) (by simp)

/-- C7: an href starting with `//` is normalized by prefixing `http:`
(giving an explicit `http://...` URL); every other href is returned
unchanged. -/
theorem c7_href_normalization (href : String) :
    (pyStartsWith "//" href = true → normalizeHref href = "http:" ++ href) ∧
    (pyStartsWith "//" href = false → normalizeHref href = href) := by
  constructor <;> intro h <;> simp [normalizeHref, h]

/-- Witness for C7: `//cdn.example.com/site` becomes
`http://cdn.example.com/site`, and `https://example.com` passes through. -/
theorem c7_href_normalization_witness :
    normalizeHref "//cdn.example.com/site" = "http://cdn.example.com/site" ∧
    normalizeHref "https://example.com" = "https://example.com" := by
  constructor
  · rw [(c7_href_normalization "//cdn.example.com/site").1 (by decide)]
    decide
  · exact (c7_href_normalization "https://example.com").2 (by decide)

/-- C4 (amended): the website extractor is memoized on the full argument
tuple `(entityName, entityId, credential)` by `lru_cache(maxsize=128)` —
an **LRU cache of capacity 128**, not an unbounded process-lifetime cache:
the cache never holds more than 128 entries. "At most one underlying fetch
per distinct key" and "two calls with an identical key yield the same
result" hold only conditionally: for serialized call sequences (such as
the strictly sequential per-parent lookups; the threaded fan-out can
additionally double-fetch on concurrent misses for one key, which spec §5
permits) touching at most 128 distinct keys, each key is fetched at most
once and all calls with one key return the same value. Beyond 128 distinct
keys, eviction forces a re-fetch whose result may differ (see the
counterexample). -/
theorem c4_lru_memoization_within_capacity (f : Nat → WebKey → Option String)
    (calls : List WebKey) :
    ((get_official_website_cached f calls).final).length ≤ 128 ∧
    (calls.toFinset.card ≤ 128 →
      (∀ k, (get_official_website_cached f calls).fetched.count k ≤ 1) ∧
      ∀ k r1 r2, (k, r1) ∈ (get_official_website_cached f calls).results →
        (k, r2) ∈ (get_official_website_cached f calls).results → r1 = r2) := by
  refine ⟨lruRun_final_length_le 128 f calls [] 0 (by simp), ?_⟩
  intro hcard
  obtain ⟨h1, -, -, h4⟩ :=
    lruRun_no_evict_invariant 128 f calls [] 0 (by simp) (by simpa using hcard)
  refine ⟨?_, ?_⟩
  · intro k
    rw [count_beq_eq_count_decEq]
    exact List.nodup_iff_count_le_one.mp h1 k
  · intro k r1 r2 hr1 hr2
    exact h4 k rfl r1 r2 hr1 hr2

/-- Witness for C4 at a concrete two-call trace on one key, with an
event-indexed fetch oracle. -/
theorem c4_lru_memoization_within_capacity_witness :
    ((get_official_website_cached (fun n _ => some (Nat.repr n))
        [("甲", "id1", "ck"), ("甲", "id1", "ck")]).final).length ≤ 128 ∧
    (∀ k, (get_official_website_cached (fun n _ => some (Nat.repr n))
        [("甲", "id1", "ck"), ("甲", "id1", "ck")]).fetched.count k ≤ 1) ∧
    ∀ k r1 r2,
      (k, r1) ∈ (get_official_website_cached (fun n _ => some (Nat.repr n))
        [("甲", "id1", "ck"), ("甲", "id1", "ck")]).results →
      (k, r2) ∈ (get_official_website_cached (fun n _ => some (Nat.repr n))
        [("甲", "id1", "ck"), ("甲", "id1", "ck")]).results → r1 = r2 := by
  have h := c4_lru_memoization_within_capacity (fun n _ => some (Nat.repr n))
    [("甲", "id1", "ck"), ("甲", "id1", "ck")]
  exact ⟨h.1, (h.2 (by decide)).1, (h.2 (by decide)).2⟩

/-- The `i`-th distinct cache key of the C4 counterexample trace. -/
def c4CexKey (i : Nat) : WebKey := ("ent" ++ Nat.repr i, "id" ++ Nat.repr i, "ck")

/-- A trace of 130 calls touching 129 distinct keys: key 0, then 128 fresh
keys (filling the capacity-128 cache and evicting key 0), then key 0
again. -/
def c4CexTrace : List WebKey :=
  c4CexKey 0 :: (((List.range 128).map fun i => c4CexKey (i + 1)) ++ [c4CexKey 0])

/-- A fetch history for the C4 counterexample: the first fetch of the run
finds no website (e.g. it times out), every later fetch finds one — as the
remote service is free to do across the two fetches of one key. -/
def c4CexFetch : Nat → WebKey → Option String :=
  fun n _ => if n = 0 then none else some "http://refetched.example"

set_option maxRecDepth 40000 in
/-- C4 counterexample: with 129 distinct keys in one (strictly serial)
run, the key `c4CexKey 0` causes **two** underlying page fetches, and its
two calls return **different** results (`none`, then the re-fetched
website) — so "at most one fetch per distinct key for the lifetime of the
process", "two calls with identical key yield the same result", and
"growth bounded only by the number of distinct entities" are all false as
stated. -/
theorem c4_eviction_refetch_counterexample :
    (get_official_website_cached c4CexFetch c4CexTrace).fetched.count (c4CexKey 0)
        = 2 ∧
    (get_official_website_cached c4CexFetch c4CexTrace).results.head? =
      some (c4CexKey 0, none) ∧
    (get_official_website_cached c4CexFetch c4CexTrace).results.getLast? =
      some (c4CexKey 0, some "http://refetched.example") ∧
    ((get_official_website_cached c4CexFetch c4CexTrace).final).length = 128 ∧
    c4CexTrace.toFinset.card = 129 := by
  refine ⟨by decide, by decide, by decide, by decide, by decide⟩

/-- C5: for every threshold outside `[0, 100]`, the equity graph query is
never invoked (no `graphCall` request is issued) and the lookup result has
an empty children sequence. -/
theorem c5_threshold_out_of_range (o : Oracles) (sched : List ChildRec → List ChildRec)
    (k : String) (t : Int) (h : ¬(0 ≤ t ∧ t ≤ 100)) :
    ∃ res calls, fetch_official_website o sched k (some t) = .ok (res, calls) ∧
      res.equity_investments = [] ∧ ∀ i, Call.graphCall i ∉ calls := by
  unfold fetch_official_website
  cases get_ent_info (o.search k) with
  | none => exact ⟨_, _, rfl, rfl, by intro i; simp⟩
  | some p =>
    obtain ⟨pn, pid⟩ := p
    dsimp only
    rw [if_neg h]
    exact ⟨_, _, rfl, rfl, by intro i; simp⟩

/-- Witness for C5 at threshold `101` against a concrete resolver. -/
theorem c5_threshold_out_of_range_witness :
    ∃ res calls,
      fetch_official_website
        ⟨fun _ => some ⟨true, [some ("母", "pid")]⟩,
         fun _ => some ⟨true, true, [⟨"子", "cid", "50"⟩]⟩,
         fun _ => some "http://x"⟩
        id "母公司" (some 101) = .ok (res, calls) ∧
      res.equity_investments = [] ∧ ∀ i, Call.graphCall i ∉ calls :=
  c5_threshold_out_of_range _ id "母公司" 101 (by decide)

/-- C9: `get_official_website` is total at its boundary — for every fetch
outcome and every behavior of the anchor search it returns `.ok` (a string
or `None`), never an uncaught exception; consequently the fan-out
collector's per-child exception branch never runs (it counts `0` uses) when
the children call `get_official_website`. -/
theorem c9_extractor_never_raises (net : Except Unit String)
    (soup : String → Except Unit (Option String)) :
    (∃ v, get_official_website net soup = .ok v) ∧
    ∀ (netK : String × String → Except Unit String)
      (soupK : String × String → String → Except Unit (Option String))
      (completed : List ChildRec),
      (fanoutCollectE
        (fun key => get_official_website (netK key) (soupK key)) completed).2 = 0 := by
  have total : ∀ (n : Except Unit String) (sp : String → Except Unit (Option String)),
      ∃ v, get_official_website n sp = .ok v := by
    intro n sp
    cases n with
    | error e => exact ⟨none, rfl⟩
    | ok html_text =>
      simp only [get_official_website]
      cases websiteParseBody html_text sp with
      | error e => exact ⟨none, rfl⟩
      | ok r => exact ⟨r, rfl⟩
  refine ⟨total net soup, ?_⟩
  intro netK soupK completed
  induction completed with
  | nil => rfl
  | cons c cs ih =>
    simp only [fanoutCollectE]
    obtain ⟨v, hv⟩ := total (netK (c.name, c.entid)) (soupK (c.name, c.entid))
    rw [hv]
    exact ih

/-- C10: when entity resolution fails for a search key, the pipeline
short-circuits: the returned result is the empty one and the only request
issued is the search itself — no website fetch and no graph query. -/
theorem c10_resolution_failure_short_circuits (o : Oracles)
    (sched : List ChildRec → List ChildRec) (k : String) (t : Option Int)
    (h : get_ent_info (o.search k) = none) :
    fetch_official_website o sched k t = .ok (⟨none, none, []⟩, [.searchCall k]) ∧
    (∀ n i, Call.websiteCall n i ∉ [Call.searchCall k]) ∧
    (∀ i, Call.graphCall i ∉ [Call.searchCall k]) := by
  refine ⟨?_, by intro n i; simp, by intro i; simp⟩
  unfold fetch_official_website
  rw [h]

/-- Witness for C10 against a resolver whose response has no list. -/
theorem c10_resolution_failure_short_circuits_witness :
    fetch_official_website ⟨fun _ => some ⟨false, []⟩, fun _ => none, fun _ => none⟩
        id "NoSuchCo" (some 0) = .ok (⟨none, none, []⟩, [.searchCall "NoSuchCo"]) ∧
    (∀ n i, Call.websiteCall n i ∉ [Call.searchCall "NoSuchCo"]) ∧
    (∀ i, Call.graphCall i ∉ [Call.searchCall "NoSuchCo"]) :=
  c10_resolution_failure_short_circuits _ id "NoSuchCo" (some 0) rfl

/-- C8: when the resolver finds no entity for a search key, the lookup
yields `{parent_name := none, official_website := none, children := []}`,
and that result still produces a parent row (with empty cells) in the
written report rather than being skipped. -/
theorem c8_no_entity_still_writes_row (o : Oracles)
    (sched : List ChildRec → List ChildRec) (k : String) (t : Option Int)
    (h : get_ent_info (o.search k) = none) :
    (∃ calls, fetch_official_website o sched k t = .ok (⟨none, none, []⟩, calls)) ∧
    rowsOfResult ⟨none, none, []⟩ = [⟨"", "", ""⟩] ∧
    ∀ pre post, (⟨"", "", ""⟩ : CsvRow) ∈
      save_to_csv (pre ++ (⟨none, none, []⟩ : LookupResult) :: post) := by
  refine ⟨⟨[.searchCall k], ?_⟩, rfl, ?_⟩
  · unfold fetch_official_website
    rw [h]
  · intro pre post
    simp only [save_to_csv, List.mem_cons]
    right
    exact List.mem_flatMap.mpr ⟨⟨none, none, []⟩, by simp, by simp [rowsOfResult]⟩

/-- Witness for C8: the resolver returns an empty result list for
`"NoSuchCo"`. -/
theorem c8_no_entity_still_writes_row_witness :
    (∃ calls, fetch_official_website ⟨fun _ => some ⟨true, []⟩, fun _ => none, fun _ => none⟩
        id "NoSuchCo" none = .ok (⟨none, none, []⟩, calls)) ∧
    rowsOfResult ⟨none, none, []⟩ = [⟨"", "", ""⟩] ∧
    ∀ pre post, (⟨"", "", ""⟩ : CsvRow) ∈
      save_to_csv (pre ++ (⟨none, none, []⟩ : LookupResult) :: post) :=
  c8_no_entity_still_writes_row _ id "NoSuchCo" none rfl

/-- C3 (code bug): a graph-response child whose `fundedRatio` is `"1.2.3"`
passes the `isdigit` guard but makes `float` raise an uncaught `ValueError`:
the equity query evaluates to an uncaught exception (`.error ()`), which
propagates through `fetch_official_website` — past the entity's resolution
step — contradicting the catch-at-point-of-occurrence policy. -/
theorem c3_multidot_ratio_raises_uncaught :
    query_equity_investment (some ⟨true, true, [⟨"壹", "id1", "1.2.3"⟩]⟩) 0 = .error () ∧
    fetch_official_website
      ⟨fun _ => some ⟨true, [some ("母", "pid")]⟩,
       fun _ => some ⟨true, true, [⟨"壹", "id1", "1.2.3"⟩]⟩,
       fun _ => none⟩
      id "母公司" (some 0) = .error () := by
  exact ⟨rfl, rfl⟩

end Beian
